import Mathlib

/-!
Shallow embedding of the EEG trial-extraction and signal-conditioning
pipeline from `data_loader.py` (class `EEGDataLoader`), together with
theorems checking the specification's claims about it.

Signal values are modelled as rationals (`ℚ`).  A recording table
(`pandas.DataFrame` with a default integer range index) is modelled by
`EEG.Table`: a number of rows, a total valuation of channel columns, and a
sparse event-marker column.  Trials are lists of channel time series.
-/

namespace EEG

abbrev Signal := List ℚ

abbrev Trial := List (List ℚ)

abbrev Corpus := List (List (List ℚ))

/-- A recording table: `numRows` samples, named channel columns (`val`),
and one trailing event-marker column (`marker`), `none` on rows with no
marker (embeds the `pd.DataFrame` consumed by `extract_trials`, with its
default range index, so index labels coincide with row positions). -/
structure Table where
  numRows : ℕ
  val : String → ℕ → ℚ
  marker : ℕ → Option ℤ

/-- The `self.selected_electrodes` dictionary of `EEGDataLoader.__init__`:
a `class_type` tag maps to its ordered 12-name electrode list (duplicates
preserved, exactly as in the source); an unknown tag has no entry. -/
def selectedElectrodes (class_type : String) : Option (List String) :=
  if class_type = "AK-SREP" then
    some ["F8", "FCz", "Fp1", "AF7", "AF3", "C1", "FC4", "F1", "Pz", "F2", "P5", "P6"]
  else if class_type = "CTK-SREP" then
    some ["F1", "P5", "F4", "AF7", "PO5", "FC1", "FCz", "Fp2", "Fz", "PO3", "TP8", "F4"]
  else if class_type = "AK-SRES" then
    some ["AF8", "FC6", "F8", "T8", "C6", "AF7", "Fp2", "CP6", "Fpz", "F4", "TP8", "P6"]
  else if class_type = "CTK-SRES" then
    some ["F1", "P4", "F4", "AF3", "CP6", "P5", "Fz", "FC2", "FC1", "P6", "PC6", "F2"]
  else none

/-- `start_event = 21 if trial_type == "reading" else 30` (line 86). -/
def startEvent (trial_type : String) : ℤ :=
  if trial_type = "reading" then 21 else 30

/-- The label lookup offset: `event_values[i - 1] if trial_type == "reading"
else event_values[i - 3]` (line 94). -/
def labelOffset (trial_type : String) : ℕ :=
  if trial_type = "reading" then 1 else 3

/-- The event stream: `(index, value)` of each row whose marker cell is
non-null, in table order (embeds `event_column.notna()` at lines 87-88). -/
def events (tbl : Table) : List (ℕ × ℤ) :=
  (List.range tbl.numRows).filterMap fun r => (tbl.marker r).map fun v => (r, v)

/-- `event_indices = event_column[event_column.notna()].index.tolist()`. -/
def eventIndices (tbl : Table) : List ℕ :=
  (events tbl).map Prod.fst

/-- `event_values = event_column.dropna().values`. -/
def eventValues (tbl : Table) : List ℤ :=
  (events tbl).map Prod.snd

/-- Python sequence indexing as used by `event_values[i - off]`: a negative
index counts from the end of the list.  (An index outside `[-len, len)`
would raise `IndexError` in Python; the in-range conjunct proved for every
kept candidate shows the extraction loop only ever evaluates in-range
indices, so the `getD` default is never consulted on reachable inputs.) -/
def pyGet (l : List ℤ) (k : ℤ) : ℤ :=
  if k < 0 then l.getD (k + l.length).toNat 0 else l.getD k.toNat 0

/-- `df.loc[start_idx:end_idx, selected_electrodes].values.T` (line 100):
one row per requested electrode name (duplicates repeated), holding the
channel's samples over the label-inclusive row range `[s, e]`. -/
def sliceSpan (tbl : Table) (els : List String) (s e : ℕ) : Trial :=
  els.map fun el => (List.range (e + 1 - s)).map fun j => tbl.val el (s + j)

/-- Length normalization of one channel row (lines 103-107): zero-pad the
tail when shorter than `target`, truncate to the leading `target` samples
when longer, pass through unchanged when equal. -/
def fitLength (target : ℕ) (row : List ℚ) : List ℚ :=
  if row.length < target then row ++ List.replicate (target - row.length) 0
  else if target < row.length then row.take target
  else row

/-- Length normalization of a whole trial: the `np.hstack` with a zero
block, resp. `trial_data[:, :target_samples]`, acts row-by-row. -/
def fitTrial (target : ℕ) (tr : Trial) : Trial :=
  tr.map (fitLength target)

/-- The candidate test `event_values[i] == start_event` (line 91). -/
def candB (tbl : Table) (se : ℤ) (i : ℕ) : Bool :=
  (eventValues tbl).getD i 0 == se

/-- The two `continue` guards of the loop body: `i == 0` (line 92) and
`i + 1 < len(event_indices)` failing (lines 96-99).  A candidate is kept
exactly when both guards pass. -/
def keepPartB (tbl : Table) (i : ℕ) : Bool :=
  (i != 0) && decide (i + 1 < (eventIndices tbl).length)

/-- A loop index `i` produces an appended trial iff `keepB` holds: the
marker matches and neither `continue` fires. -/
def keepB (tbl : Table) (se : ℤ) (i : ℕ) : Bool :=
  candB tbl se i && keepPartB tbl i

/-- The trial appended for a kept index `i` (lines 95-109): slice the
closed row span from the candidate's own marker row to the next marker
row, then length-normalize. -/
def emitTrial (tbl : Table) (els : List String) (target : ℕ) (i : ℕ) : Trial :=
  fitTrial target
    (sliceSpan tbl els ((eventIndices tbl).getD i 0) ((eventIndices tbl).getD (i + 1) 0))

/-- The label appended for a kept index `i` (line 94), with Python's
negative-index wraparound. -/
def emitLabel (tbl : Table) (off : ℕ) (i : ℕ) : ℤ :=
  pyGet (eventValues tbl) ((i : ℤ) - off)

/-- The scan loop of `extract_trials` (lines 90-110): one `(trial, label)`
pair per kept index, in loop order.  (In the source the label is computed
before the dangling-end guard, but that computation is pure and total on
all reachable streams — its index never leaves Python's valid range, as
proved for every kept candidate — so fusing the guards is extensionally
faithful.) -/
def extractPairs (tbl : Table) (els : List String) (target : ℕ) (se : ℤ) (off : ℕ) :
    List (Trial × ℤ) :=
  (List.range (eventValues tbl).length).filterMap fun i =>
    if keepB tbl se i then some (emitTrial tbl els target i, emitLabel tbl off i) else none

/-- `extract_trials` (lines 78-112).  The dictionary lookup
`self.selected_electrodes[class_type]` raises `KeyError` on an unknown
tag; that failure is the `Except.error` branch. -/
def extract_trials (tbl : Table) (class_type trial_type : String) (target : ℕ) :
    Except String (List Trial × List ℤ) :=
  match selectedElectrodes class_type with
  | none => .error ("KeyError: " ++ class_type)
  | some els =>
      let pairs := extractPairs tbl els target (startEvent trial_type) (labelOffset trial_type)
      .ok (pairs.map Prod.fst, pairs.map Prod.snd)

/-- All candidate indices of the stream (marker equals the start marker). -/
def candidateIdx (tbl : Table) (se : ℤ) : List ℕ :=
  (List.range (eventValues tbl).length).filter (candB tbl se)

/-- The kept candidate indices: those that emit a trial. -/
def keptIdx (tbl : Table) (se : ℤ) : List ℕ :=
  (List.range (eventValues tbl).length).filter (keepB tbl se)

/-- The skipped candidate indices: leading (`i = 0`) or dangling (no
following marker event). -/
def skippedIdx (tbl : Table) (se : ℤ) : List ℕ :=
  (List.range (eventValues tbl).length).filter fun i => candB tbl se i && !keepPartB tbl i

/-- Stepping engine for `strided`: keep the head, skip the next `k - 1`
elements, recurse.  `fuel` only bounds the recursion depth (each step
consumes at least one element, so `fuel = l.length` never runs out, see
`stridedGo_length`). -/
def stridedGo (k : ℕ) : ℕ → List ℚ → List ℚ
  | _, [] => []
  | 0, _ :: _ => []
  | fuel + 1, x :: xs => x :: stridedGo k fuel (xs.drop (k - 1))

/-- `data[:, :, ::factor]` on one channel: every `factor`-th sample,
starting with the first. -/
def strided (k : ℕ) (l : List ℚ) : List ℚ :=
  stridedGo k l.length l

/-- `_downsample` (lines 31-33), applied per trial and channel. -/
def downsample (factor : ℕ) (c : Corpus) : Corpus :=
  c.map fun tr => tr.map (strided factor)

/-- `np.mean(data, axis=1, ...)` at one time position of one trial: the
across-channel average (line 49). -/
def carAvg (chs : Trial) (t : ℕ) : ℚ :=
  ((chs.map fun ch => ch.getD t 0).sum) / chs.length

/-- `_common_average_reference` on one trial (lines 45-50): subtract the
per-sample across-channel mean from every channel. -/
def carTrial (chs : Trial) : Trial :=
  chs.map fun ch => (List.range ch.length).map fun t => ch.getD t 0 - carAvg chs t

/-- `_common_average_reference` on the whole batch. -/
def common_average_reference (c : Corpus) : Corpus :=
  c.map carTrial

/-- The smallest value of a channel, `np.min(data, axis=-1)` (line 70). -/
def listMin : List ℚ → ℚ
  | [] => 0
  | [x] => x
  | x :: y :: t => min x (listMin (y :: t))

/-- The largest value of a channel, `np.max(data, axis=-1)` (line 71). -/
def listMax : List ℚ → ℚ
  | [] => 0
  | [x] => x
  | x :: y :: t => max x (listMax (y :: t))

/-- The divisor of the min-max rescale after the zero-range substitution
`data_range[data_range == 0] = 1` (lines 72-73). -/
def mmRange (ch : List ℚ) : ℚ :=
  if listMax ch - listMin ch = 0 then 1 else listMax ch - listMin ch

/-- `_min_max_normalization_per_signal` on one channel of one trial
(lines 65-76): `(x - min) / range * (max_val - min_val) + min_val` with
`feature_range = (lo, hi)`. -/
def minMaxCh (lo hi : ℚ) (ch : List ℚ) : List ℚ :=
  ch.map fun x => (x - listMin ch) / mmRange ch * (hi - lo) + lo

/-- `_min_max_normalization_per_signal` on one trial. -/
def minMaxTrial (lo hi : ℚ) (tr : Trial) : Trial :=
  tr.map (minMaxCh lo hi)

/-- `_min_max_normalization_per_signal` on the whole batch. -/
def min_max_normalization_per_signal (lo hi : ℚ) (c : Corpus) : Corpus :=
  c.map (minMaxTrial lo hi)

/-- Modelled from the spec: `_butterworth_lowpass_filter` (lines 35-43)
delegates to `scipy.signal.filtfilt`, which is not part of this
repository; per the spec it is a zero-phase low-pass filter "applied
independently along the time axis of every (trial, channel) series" that
"preserves trial and channel counts".  It is embedded as an arbitrary
per-series transform `f`, assumed length-preserving where needed. -/
def butterworth_lowpass_filter (f : List ℚ → List ℚ) (c : Corpus) : Corpus :=
  c.map fun tr => tr.map f

/-- Modelled from the spec: `_apply_ica` (lines 52-63) delegates to
`sklearn.decomposition.FastICA`, external to this repository; per the
spec it is a per-trial decomposition/reconstruction round trip that
preserves the trial's shape.  It is embedded as an arbitrary per-trial
transform `g`, assumed shape-preserving where needed. -/
def apply_ica (g : Trial → Trial) (c : Corpus) : Corpus :=
  c.map g

/-- The per-trial composition of the five pipeline stages of `get_trials`
(lines 133-137), in source order: filter, CAR, ICA, downsample by 2,
min-max normalization to `(0, 1)`. -/
def pipelinePerTrial (f : List ℚ → List ℚ) (g : Trial → Trial) (tr : Trial) : Trial :=
  minMaxTrial 0 1 ((g (carTrial (tr.map f))).map (strided 2))

/-- The five-stage conditioning pipeline of `get_trials` (lines 133-137)
on the whole corpus. -/
def get_trials_pipeline (f : List ℚ → List ℚ) (g : Trial → Trial) (c : Corpus) : Corpus :=
  min_max_normalization_per_signal 0 1
    (downsample 2 (apply_ica g (common_average_reference (butterworth_lowpass_filter f c))))

/-- NumPy integer array indexing as used by `self.data[idx]` in
`__getitem__` (lines 143-147): indices in `[0, n)` address directly,
indices in `[-n, 0)` wrap from the end, anything else raises
`IndexError` (the `none` branch). -/
def npIndex (n : ℕ) (k : ℤ) : Option ℕ :=
  if 0 ≤ k ∧ k < n then some k.toNat
  else if -(n : ℤ) ≤ k ∧ k < 0 then some (k + n).toNat
  else none

/-- `__getitem__` (lines 143-147): the feature matrix, the adjacency
matrix of the external `GMatrixCalculator._compute_G_matrix` (modelled
from the spec as a pure function `G` of the conditioned trial), and the
re-based label `label - 1`; `none` is the `IndexError` of out-of-range
access. -/
def dataset_getitem (G : Trial → Trial) (data : Corpus) (labels : List ℤ) (k : ℤ) :
    Option (Trial × Trial × ℤ) :=
  match npIndex data.length k with
  | none => none
  | some j => some (data.getD j [], G (data.getD j []), labels.getD j 0 - 1)

/-- `__len__` (lines 149-150). -/
def dataset_len (data : Corpus) : ℕ :=
  data.length

/-! ### Helper lemmas about the Trial Extractor -/

theorem eventIndices_length (tbl : Table) :
    (eventIndices tbl).length = (eventValues tbl).length := by
  simp [eventIndices, eventValues]

theorem filterMap_if {α β : Type} (p : α → Bool) (f : α → β) (l : List α) :
    (l.filterMap fun a => if p a then some (f a) else none) = (l.filter p).map f := by
  induction l with
  | nil => rfl
  | cons x xs ih =>
      by_cases h : p x = true
      · simp [List.filterMap_cons, List.filter_cons, h, ih]
      · simp [List.filterMap_cons, List.filter_cons, h, ih]

theorem length_filter_split {α : Type} (l : List α) (p q : α → Bool) :
    (l.filter fun a => p a && q a).length + (l.filter fun a => p a && !q a).length
      = (l.filter p).length := by
  induction l with
  | nil => rfl
  | cons x xs ih =>
      by_cases hp : p x = true
      · by_cases hq : q x = true
        · simp [List.filter_cons, hp, hq, ih]
          omega
        · simp [List.filter_cons, hp, hq, ih]
          omega
      · simp [List.filter_cons, hp, ih]

theorem extract_ok (tbl : Table) (ct tt : String) (target : ℕ) (els : List String)
    (hct : selectedElectrodes ct = some els) :
    extract_trials tbl ct tt target =
      .ok ((keptIdx tbl (startEvent tt)).map (emitTrial tbl els target),
           (keptIdx tbl (startEvent tt)).map (emitLabel tbl (labelOffset tt))) := by
  have h1 : extractPairs tbl els target (startEvent tt) (labelOffset tt) =
      (keptIdx tbl (startEvent tt)).map
        (fun i => (emitTrial tbl els target i, emitLabel tbl (labelOffset tt) i)) := by
    simpa [extractPairs, keptIdx] using
      filterMap_if (keepB tbl (startEvent tt))
        (fun i => (emitTrial tbl els target i, emitLabel tbl (labelOffset tt) i))
        (List.range (eventValues tbl).length)
  unfold extract_trials
  rw [hct]
  simp [h1, List.map_map, Function.comp]

theorem keepB_iff (tbl : Table) (se : ℤ) (i : ℕ) :
    keepB tbl se i = true ↔
      (eventValues tbl).getD i 0 = se ∧ i ≠ 0 ∧ i + 1 < (eventIndices tbl).length := by
  simp [keepB, candB, keepPartB]

theorem mem_keptIdx_iff (tbl : Table) (se : ℤ) (i : ℕ) :
    i ∈ keptIdx tbl se ↔
      (eventValues tbl).getD i 0 = se ∧ i ≠ 0 ∧ i + 1 < (eventIndices tbl).length := by
  constructor
  · intro h
    have := List.of_mem_filter h
    exact (keepB_iff tbl se i).1 this
  · intro h
    have hi : i < (eventValues tbl).length := by
      have := h.2.2
      rw [eventIndices_length] at this
      omega
    exact List.mem_filter.2 ⟨List.mem_range.2 hi, (keepB_iff tbl se i).2 h⟩

theorem labelOffset_cases (tt : String) : labelOffset tt = 1 ∨ labelOffset tt = 3 := by
  unfold labelOffset
  split
  · exact Or.inl rfl
  · exact Or.inr rfl

theorem fitLength_length (target : ℕ) (row : List ℚ) :
    (fitLength target row).length = target := by
  unfold fitLength
  split
  · simp
    omega
  · split
    · simp
      omega
    · omega

/-! ### Claim theorems about the Trial Extractor -/

/-- C1: every trial emitted by `extract_trials` is a matrix with exactly
`len(selected_electrodes)` rows and exactly `target_samples` columns;
per-channel length normalization zero-pads the tail when the span is
shorter (a span of length `target - 1` gains exactly one trailing zero),
truncates to the leading `target` samples when longer (a span of length
`target + 1` loses exactly its last sample), and passes an equal-length
span through unchanged. -/
theorem C1_trial_shape (tbl : Table) (ct tt : String) (target : ℕ) (els : List String)
    (trials : List Trial) (labels : List ℤ)
    (hct : selectedElectrodes ct = some els)
    (hex : extract_trials tbl ct tt target = .ok (trials, labels)) :
    (∀ tr ∈ trials, tr.length = els.length ∧ ∀ row ∈ tr, row.length = target) ∧
    (∀ row : List ℚ, row.length < target →
      fitLength target row = row ++ List.replicate (target - row.length) 0) ∧
    (∀ row : List ℚ, row.length + 1 = target → fitLength target row = row ++ [0]) ∧
    (∀ row : List ℚ, target < row.length → fitLength target row = row.take target) ∧
    (∀ row : List ℚ, row.length = target + 1 → fitLength target row = row.dropLast) ∧
    (∀ row : List ℚ, row.length = target → fitLength target row = row) := by
  rw [extract_ok tbl ct tt target els hct] at hex
  have htr : trials = (keptIdx tbl (startEvent tt)).map (emitTrial tbl els target) := by
    have := hex
    simp only [Except.ok.injEq, Prod.mk.injEq] at this
    exact this.1.symm
  refine ⟨?_, ?_, ?_, ?_, ?_, ?_⟩
  · intro tr htrm
    rw [htr] at htrm
    obtain ⟨i, _, hi⟩ := List.mem_map.1 htrm
    subst hi
    constructor
    · simp [emitTrial, fitTrial, sliceSpan]
    · intro row hrow
      simp only [emitTrial, fitTrial] at hrow
      obtain ⟨r, _, hr⟩ := List.mem_map.1 hrow
      subst hr
      exact fitLength_length target r
  · intro row hlt
    simp [fitLength, hlt]
  · intro row hlt
    have h1 : row.length < target := by omega
    have h2 : target - row.length = 1 := by omega
    simp [fitLength, h1, h2]
  · intro row hgt
    have h1 : ¬ row.length < target := by omega
    simp [fitLength, h1, hgt]
  · intro row heq
    have h1 : ¬ row.length < target := by omega
    have h2 : target < row.length := by omega
    have h3 : row.dropLast = row.take target := by
      rw [List.dropLast_eq_take]
      simp [heq]
    simp [fitLength, h1, h2, h3]
  · intro row heq
    have h1 : ¬ row.length < target := by omega
    have h2 : ¬ target < row.length := by omega
    simp [fitLength, h1, h2]

/-- C2: a trial-start candidate is skipped (contributing no trial and no
label) exactly when it is the very first event of the stream or when no
marker event follows it; the emitted trials and labels are exactly those
of the kept candidates, in order (so each skipped candidate reduces the
output by exactly one trial and the other emitted pairs are unchanged),
the kept/skipped candidate counts add up to the candidate count, and the
label lookup of every kept candidate stays inside Python's valid index
range, so no error is raised. -/
theorem C2_skip_rules (tbl : Table) (ct tt : String) (target : ℕ) (els : List String)
    (trials : List Trial) (labels : List ℤ)
    (hct : selectedElectrodes ct = some els)
    (hex : extract_trials tbl ct tt target = .ok (trials, labels)) :
    trials = (keptIdx tbl (startEvent tt)).map (emitTrial tbl els target) ∧
    labels = (keptIdx tbl (startEvent tt)).map (emitLabel tbl (labelOffset tt)) ∧
    (∀ i, i ∈ keptIdx tbl (startEvent tt) ↔
      ((eventValues tbl).getD i 0 = startEvent tt ∧ i ≠ 0 ∧
        i + 1 < (eventIndices tbl).length)) ∧
    trials.length + (skippedIdx tbl (startEvent tt)).length
      = (candidateIdx tbl (startEvent tt)).length ∧
    (∀ i ∈ keptIdx tbl (startEvent tt),
      -((eventValues tbl).length : ℤ) ≤ (i : ℤ) - (labelOffset tt : ℤ) ∧
        (i : ℤ) - (labelOffset tt : ℤ) < ((eventValues tbl).length : ℤ)) := by
  rw [extract_ok tbl ct tt target els hct] at hex
  simp only [Except.ok.injEq, Prod.mk.injEq] at hex
  obtain ⟨htr, hlb⟩ := hex
  refine ⟨htr.symm, hlb.symm, fun i => mem_keptIdx_iff tbl (startEvent tt) i, ?_, ?_⟩
  · have hsplit := length_filter_split (List.range (eventValues tbl).length)
      (candB tbl (startEvent tt)) (keepPartB tbl)
    have hlen : trials.length = (keptIdx tbl (startEvent tt)).length := by
      rw [htr.symm, List.length_map]
    rw [hlen]
    simpa [keptIdx, skippedIdx, candidateIdx, keepB] using hsplit
  · intro i hi
    have h := (mem_keptIdx_iff tbl (startEvent tt) i).1 hi
    have hlen := eventIndices_length tbl
    have hoff := labelOffset_cases tt
    have h0 : i ≠ 0 := h.2.1
    have h1 : i + 1 < (eventValues tbl).length := by omega
    rcases hoff with h3 | h3 <;> rw [h3] <;> constructor <;> push_cast <;> omega

/-- C3: for a valid (kept) trial-start candidate at event-stream index `i`
with `i` at least the label offset, the label emitted for it is the
marker value at index `i - 1` when `trial_type` is `"reading"` (start
marker 21, offset 1) and at index `i - 3` otherwise (start marker 30,
offset 3). -/
theorem C3_label_rule (tbl : Table) (ct tt : String) (target : ℕ) (els : List String)
    (trials : List Trial) (labels : List ℤ) (i : ℕ)
    (hct : selectedElectrodes ct = some els)
    (hex : extract_trials tbl ct tt target = .ok (trials, labels))
    (hcand : (eventValues tbl).getD i 0 = startEvent tt)
    (h0 : i ≠ 0) (hnext : i + 1 < (eventIndices tbl).length)
    (hoff : labelOffset tt ≤ i) :
    labels = (keptIdx tbl (startEvent tt)).map (emitLabel tbl (labelOffset tt)) ∧
    i ∈ keptIdx tbl (startEvent tt) ∧
    emitLabel tbl (labelOffset tt) i = (eventValues tbl).getD (i - labelOffset tt) 0 ∧
    (tt = "reading" → startEvent tt = 21 ∧ labelOffset tt = 1) ∧
    (tt ≠ "reading" → startEvent tt = 30 ∧ labelOffset tt = 3) := by
  rw [extract_ok tbl ct tt target els hct] at hex
  simp only [Except.ok.injEq, Prod.mk.injEq] at hex
  refine ⟨hex.2.symm, (mem_keptIdx_iff tbl (startEvent tt) i).2 ⟨hcand, h0, hnext⟩, ?_, ?_, ?_⟩
  · unfold emitLabel pyGet
    rw [if_neg (by omega)]
    congr 1
    omega
  · intro h
    simp [startEvent, labelOffset, h]
  · intro h
    simp [startEvent, labelOffset, h]

/-- C9: for a non-`"reading"` `trial_type` (label offset 3), a
start-marker candidate at event-stream index `i = 1` or `i = 2` that has
a following marker event is kept, not an error: it emits a trial whose
label is the marker value at index `len(event_stream) + i - 3`, i.e. the
label offset wraps around to the end of the event stream, and that
wrapped index is in range. -/
theorem C9_label_wrap (tbl : Table) (ct tt : String) (target : ℕ) (els : List String)
    (trials : List Trial) (labels : List ℤ) (i : ℕ)
    (hct : selectedElectrodes ct = some els)
    (hex : extract_trials tbl ct tt target = .ok (trials, labels))
    (htt : tt ≠ "reading")
    (hi : i = 1 ∨ i = 2)
    (hcand : (eventValues tbl).getD i 0 = 30)
    (hnext : i + 1 < (eventIndices tbl).length) :
    i ∈ keptIdx tbl (startEvent tt) ∧
    trials.length = (keptIdx tbl (startEvent tt)).length ∧
    labels = (keptIdx tbl (startEvent tt)).map (emitLabel tbl 3) ∧
    emitLabel tbl 3 i = (eventValues tbl).getD ((eventValues tbl).length + i - 3) 0 ∧
    (eventValues tbl).length + i - 3 < (eventValues tbl).length := by
  have hse : startEvent tt = 30 := by simp [startEvent, htt]
  have hof : labelOffset tt = 3 := by simp [labelOffset, htt]
  rw [extract_ok tbl ct tt target els hct] at hex
  simp only [Except.ok.injEq, Prod.mk.injEq] at hex
  have hlen3 : 3 ≤ (eventValues tbl).length := by
    have := eventIndices_length tbl
    omega
  refine ⟨(mem_keptIdx_iff tbl (startEvent tt) i).2 ⟨by rw [hse]; exact hcand, by omega, hnext⟩,
    ?_, ?_, ?_, by omega⟩
  · rw [← hex.1, List.length_map]
  · rw [← hex.2, hof]
  · unfold emitLabel pyGet
    rw [if_pos (by omega)]
    congr 1
    omega

/-! ### Concrete witness data -/

/-- The electrode list of the `"AK-SREP"` condition profile. -/
def elsAK : List String :=
  ["F8", "FCz", "Fp1", "AF7", "AF3", "C1", "FC4", "F1", "Pz", "F2", "P5", "P6"]

/-- A 4-sample recording with events `5, 21, 9` on rows 0-2; channel
values equal the row number. -/
def wTblA : Table where
  numRows := 4
  val := fun _ r => (r : ℚ)
  marker := fun r =>
    if r = 0 then some 5 else if r = 1 then some 21 else if r = 2 then some 9 else none

/-- A 5-sample recording with events `21, 4, 21, 6, 21`: a leading start
marker, one valid start marker, and a dangling trailing start marker. -/
def wTblB : Table where
  numRows := 5
  val := fun _ r => (r : ℚ)
  marker := fun r =>
    if r = 0 then some 21 else if r = 1 then some 4 else if r = 2 then some 21
    else if r = 3 then some 6 else some 21

/-- A 4-sample recording with events `7, 30, 8` on rows 0-2: a start
marker of the second task family at event index 1. -/
def wTblC : Table where
  numRows := 4
  val := fun _ r => (r : ℚ)
  marker := fun r =>
    if r = 0 then some 7 else if r = 1 then some 30 else if r = 2 then some 8 else none

/-- Witness for C1: `wTblA` holds one valid trial of span 2, padded to 3
samples over the 12 `"AK-SREP"` electrodes. -/
theorem C1_trial_shape_witness :
    (∀ tr ∈ [List.replicate 12 [(1 : ℚ), 2, 0]],
      tr.length = elsAK.length ∧ ∀ row ∈ tr, row.length = 3) ∧
    (∀ row : List ℚ, row.length < 3 →
      fitLength 3 row = row ++ List.replicate (3 - row.length) 0) ∧
    (∀ row : List ℚ, row.length + 1 = 3 → fitLength 3 row = row ++ [0]) ∧
    (∀ row : List ℚ, 3 < row.length → fitLength 3 row = row.take 3) ∧
    (∀ row : List ℚ, row.length = 3 + 1 → fitLength 3 row = row.dropLast) ∧
    (∀ row : List ℚ, row.length = 3 → fitLength 3 row = row) :=
  C1_trial_shape wTblA "AK-SREP" "reading" 3 elsAK
    [List.replicate 12 [(1 : ℚ), 2, 0]] [5] (by rfl) (by rfl)

/-- Witness for C2: in `wTblB` the leading start marker (index 0) and the
dangling trailing start marker (index 4) are skipped and only the middle
candidate (index 2) emits, so 1 kept + 2 skipped = 3 candidates. -/
theorem C2_skip_rules_witness :
    [List.replicate 12 [(2 : ℚ), 3]]
        = (keptIdx wTblB (startEvent "reading")).map (emitTrial wTblB elsAK 2) ∧
    [(4 : ℤ)] = (keptIdx wTblB (startEvent "reading")).map
        (emitLabel wTblB (labelOffset "reading")) ∧
    (∀ i, i ∈ keptIdx wTblB (startEvent "reading") ↔
      ((eventValues wTblB).getD i 0 = startEvent "reading" ∧ i ≠ 0 ∧
        i + 1 < (eventIndices wTblB).length)) ∧
    ([List.replicate 12 [(2 : ℚ), 3]] : List Trial).length
        + (skippedIdx wTblB (startEvent "reading")).length
      = (candidateIdx wTblB (startEvent "reading")).length ∧
    (∀ i ∈ keptIdx wTblB (startEvent "reading"),
      -((eventValues wTblB).length : ℤ) ≤ (i : ℤ) - (labelOffset "reading" : ℤ) ∧
        (i : ℤ) - (labelOffset "reading" : ℤ) < ((eventValues wTblB).length : ℤ)) :=
  C2_skip_rules wTblB "AK-SREP" "reading" 2 elsAK
    [List.replicate 12 [(2 : ℚ), 3]] [4] (by rfl) (by rfl)

/-- Witness for C3: the valid candidate of `wTblA` sits at event index 1
and its emitted label is the marker value at index 0. -/
theorem C3_label_rule_witness :
    [(5 : ℤ)] = (keptIdx wTblA (startEvent "reading")).map
        (emitLabel wTblA (labelOffset "reading")) ∧
    1 ∈ keptIdx wTblA (startEvent "reading") ∧
    emitLabel wTblA (labelOffset "reading") 1
      = (eventValues wTblA).getD (1 - labelOffset "reading") 0 ∧
    ("reading" = "reading" → startEvent "reading" = 21 ∧ labelOffset "reading" = 1) ∧
    ("reading" ≠ "reading" → startEvent "reading" = 30 ∧ labelOffset "reading" = 3) :=
  C3_label_rule wTblA "AK-SREP" "reading" 3 elsAK
    [List.replicate 12 [(1 : ℚ), 2, 0]] [5] 1 (by rfl) (by rfl) (by rfl)
    (by decide) (by decide) (by decide)

/-- Witness for C9: in `wTblC` with `trial_type = "speaking"` the
candidate at event index 1 is kept and its label wraps to event index
`3 + 1 - 3 = 1` of the three-event stream. -/
theorem C9_label_wrap_witness :
    1 ∈ keptIdx wTblC (startEvent "speaking") ∧
    ([List.replicate 12 [(1 : ℚ), 2]] : List Trial).length
        = (keptIdx wTblC (startEvent "speaking")).length ∧
    [(30 : ℤ)] = (keptIdx wTblC (startEvent "speaking")).map (emitLabel wTblC 3) ∧
    emitLabel wTblC 3 1
      = (eventValues wTblC).getD ((eventValues wTblC).length + 1 - 3) 0 ∧
    (eventValues wTblC).length + 1 - 3 < (eventValues wTblC).length :=
  C9_label_wrap wTblC "AK-SREP" "speaking" 2 elsAK
    [List.replicate 12 [(1 : ℚ), 2]] [30] 1 (by rfl) (by rfl) (by decide)
    (by decide) (by rfl) (by decide)

/-! ### Helper lemmas about min-max normalization -/

theorem listMin_le {l : List ℚ} {a : ℚ} (h : a ∈ l) : listMin l ≤ a := by
  induction l with
  | nil => cases h
  | cons x xs ih =>
      cases xs with
      | nil =>
          rcases List.mem_singleton.1 h with rfl
          simp [listMin]
      | cons y t =>
          rcases List.mem_cons.1 h with rfl | h2
          · exact min_le_left _ _
          · exact le_trans (min_le_right _ _) (ih h2)

theorem le_listMax {l : List ℚ} {a : ℚ} (h : a ∈ l) : a ≤ listMax l := by
  induction l with
  | nil => cases h
  | cons x xs ih =>
      cases xs with
      | nil =>
          rcases List.mem_singleton.1 h with rfl
          simp [listMax]
      | cons y t =>
          rcases List.mem_cons.1 h with rfl | h2
          · exact le_max_left _ _
          · exact le_trans (ih h2) (le_max_right _ _)

theorem listMax_mem {l : List ℚ} (h : l ≠ []) : listMax l ∈ l := by
  induction l with
  | nil => exact absurd rfl h
  | cons x xs ih =>
      cases xs with
      | nil => simp [listMax]
      | cons y t =>
          have hstep : listMax (x :: y :: t) = max x (listMax (y :: t)) := rfl
          rcases max_choice x (listMax (y :: t)) with h1 | h1
          · rw [hstep, h1]
            exact List.mem_cons_self x _
          · rw [hstep, h1]
            exact List.mem_cons_of_mem x (ih (by simp))

theorem listMin_mem {l : List ℚ} (h : l ≠ []) : listMin l ∈ l := by
  induction l with
  | nil => exact absurd rfl h
  | cons x xs ih =>
      cases xs with
      | nil => simp [listMin]
      | cons y t =>
          have hstep : listMin (x :: y :: t) = min x (listMin (y :: t)) := rfl
          rcases min_choice x (listMin (y :: t)) with h1 | h1
          · rw [hstep, h1]
            exact List.mem_cons_self x _
          · rw [hstep, h1]
            exact List.mem_cons_of_mem x (ih (by simp))

theorem listMin_le_listMax {l : List ℚ} (h : l ≠ []) : listMin l ≤ listMax l :=
  le_trans (listMin_le (listMax_mem h)) (le_refl _)

theorem listMin_map_mono {f : ℚ → ℚ} (hf : Monotone f) :
    ∀ {l : List ℚ}, l ≠ [] → listMin (l.map f) = f (listMin l) := by
  intro l
  induction l with
  | nil => intro h; exact absurd rfl h
  | cons x xs ih =>
      intro _
      cases xs with
      | nil => simp [listMin]
      | cons y t =>
          have h1 : listMin ((x :: y :: t).map f) = min (f x) (listMin ((y :: t).map f)) := by
            simp [listMin]
          rw [h1, ih (by simp)]
          show min (f x) (f (listMin (y :: t))) = f (min x (listMin (y :: t)))
          exact (hf.map_min).symm

theorem listMax_map_mono {f : ℚ → ℚ} (hf : Monotone f) :
    ∀ {l : List ℚ}, l ≠ [] → listMax (l.map f) = f (listMax l) := by
  intro l
  induction l with
  | nil => intro h; exact absurd rfl h
  | cons x xs ih =>
      intro _
      cases xs with
      | nil => simp [listMax]
      | cons y t =>
          have h1 : listMax ((x :: y :: t).map f) = max (f x) (listMax ((y :: t).map f)) := by
            simp [listMax]
          rw [h1, ih (by simp)]
          show max (f x) (f (listMax (y :: t))) = f (max x (listMax (y :: t)))
          exact (hf.map_max).symm

theorem listMin_replicate (m : ℕ) (v : ℚ) : listMin (List.replicate (m + 1) v) = v := by
  induction m with
  | zero => simp [listMin]
  | succ n ih =>
      have h : List.replicate (n + 1 + 1) v = v :: List.replicate (n + 1) v := rfl
      rw [h]
      cases hrep : List.replicate (n + 1) v with
      | nil => simp at hrep
      | cons w ws =>
          rw [show listMin (v :: w :: ws) = min v (listMin (w :: ws)) from rfl, ← hrep, ih]
          simp

theorem listMax_replicate (m : ℕ) (v : ℚ) : listMax (List.replicate (m + 1) v) = v := by
  induction m with
  | zero => simp [listMax]
  | succ n ih =>
      have h : List.replicate (n + 1 + 1) v = v :: List.replicate (n + 1) v := rfl
      rw [h]
      cases hrep : List.replicate (n + 1) v with
      | nil => simp at hrep
      | cons w ws =>
          rw [show listMax (v :: w :: ws) = max v (listMax (w :: ws)) from rfl, ← hrep, ih]
          simp

theorem mmRange_pos (ch : List ℚ) : 0 < mmRange ch := by
  unfold mmRange
  split
  · norm_num
  · rename_i h
    cases ch with
    | nil => simp [listMin, listMax] at h
    | cons x xs =>
        have hle : listMin (x :: xs) ≤ listMax (x :: xs) := listMin_le_listMax (by simp)
        have hne : listMin (x :: xs) ≠ listMax (x :: xs) := by
          intro heq
          exact h (by rw [heq]; ring)
        have : listMin (x :: xs) < listMax (x :: xs) := lt_of_le_of_ne hle hne
        linarith

theorem mmRange_ne_zero (ch : List ℚ) : mmRange ch ≠ 0 :=
  (mmRange_pos ch).ne'

theorem sub_le_mmRange (ch : List ℚ) : listMax ch - listMin ch ≤ mmRange ch := by
  unfold mmRange
  split
  · rename_i h
    rw [h]
    norm_num
  · exact le_refl _

theorem minMaxCh_mem_bounds {lo hi : ℚ} (hlohi : lo ≤ hi) {ch : List ℚ} {x : ℚ}
    (hx : x ∈ minMaxCh lo hi ch) : lo ≤ x ∧ x ≤ hi := by
  obtain ⟨a, ha, rfl⟩ := List.mem_map.1 hx
  have hr := mmRange_pos ch
  have h1 : 0 ≤ (a - listMin ch) / mmRange ch :=
    div_nonneg (sub_nonneg.2 (listMin_le ha)) hr.le
  have h2 : (a - listMin ch) / mmRange ch ≤ 1 :=
    (div_le_one hr).2 (le_trans (sub_le_sub_right (le_listMax ha) _) (sub_le_mmRange ch))
  constructor
  · nlinarith
  · nlinarith

/-- After one pass with range `(0, 1)`, the channel minimum is exactly 0. -/
theorem listMin_minMaxCh {ch : List ℚ} (h : ch ≠ []) :
    listMin (minMaxCh 0 1 ch) = 0 := by
  have hr := mmRange_pos ch
  have hmono : Monotone fun a : ℚ => (a - listMin ch) / mmRange ch * (1 - 0) + 0 := by
    intro a b hab
    have h2 : (a - listMin ch) / mmRange ch ≤ (b - listMin ch) / mmRange ch :=
      div_le_div_of_nonneg_right (sub_le_sub_right hab _) hr.le
    nlinarith
  rw [show minMaxCh 0 1 ch
      = ch.map fun a => (a - listMin ch) / mmRange ch * (1 - 0) + 0 from rfl]
  rw [listMin_map_mono hmono h]
  simp

/-- After one pass with range `(0, 1)`, the zero-substituted divisor of a
second pass is exactly 1. -/
theorem mmRange_minMaxCh {ch : List ℚ} (h : ch ≠ []) :
    mmRange (minMaxCh 0 1 ch) = 1 := by
  have hr := mmRange_pos ch
  have hmono : Monotone fun a : ℚ => (a - listMin ch) / mmRange ch * (1 - 0) + 0 := by
    intro a b hab
    have h2 : (a - listMin ch) / mmRange ch ≤ (b - listMin ch) / mmRange ch :=
      div_le_div_of_nonneg_right (sub_le_sub_right hab _) hr.le
    nlinarith
  have hmapped : minMaxCh 0 1 ch
      = ch.map fun a => (a - listMin ch) / mmRange ch * (1 - 0) + 0 := rfl
  have hmn : listMin (minMaxCh 0 1 ch) = 0 := listMin_minMaxCh h
  have hmx : listMax (minMaxCh 0 1 ch)
      = (listMax ch - listMin ch) / mmRange ch * (1 - 0) + 0 := by
    rw [hmapped, listMax_map_mono hmono h]
  unfold mmRange
  rw [hmn, hmx]
  by_cases hc : listMax ch - listMin ch = 0
  · rw [hc]
    norm_num
  · have hreq : mmRange ch = listMax ch - listMin ch := by
      unfold mmRange
      rw [if_neg hc]
    rw [hreq, div_self hc]
    norm_num

theorem minMaxCh_idem (ch : List ℚ) :
    minMaxCh 0 1 (minMaxCh 0 1 ch) = minMaxCh 0 1 ch := by
  cases ch with
  | nil => rfl
  | cons x xs =>
      have h : (x :: xs : List ℚ) ≠ [] := by simp
      have hgoal : minMaxCh 0 1 (minMaxCh 0 1 (x :: xs))
          = (minMaxCh 0 1 (x :: xs)).map fun a =>
              (a - listMin (minMaxCh 0 1 (x :: xs))) / mmRange (minMaxCh 0 1 (x :: xs))
                * (1 - 0) + 0 := rfl
      rw [hgoal, listMin_minMaxCh h, mmRange_minMaxCh h]
      simp

theorem minMaxTrial_idem (tr : Trial) :
    minMaxTrial 0 1 (minMaxTrial 0 1 tr) = minMaxTrial 0 1 tr := by
  unfold minMaxTrial
  rw [List.map_map]
  exact List.map_congr_left fun ch _ => minMaxCh_idem ch

/-! ### Claim theorems about min-max normalization -/

/-- C4: a channel that is constant `v` throughout a trial is normalized
to the constant `lo` (the lower bound of the target range): the divisor
is replaced by 1 so the result is `(v - v) / 1 * (hi - lo) + lo = lo`;
the substituted divisor is never zero on any channel, so the stage never
divides by zero. -/
theorem C4_constant_channel (lo hi v : ℚ) (m c : ℕ) (tr : Trial)
    (hc : tr.getD c [] = List.replicate (m + 1) v) :
    (minMaxTrial lo hi tr).getD c [] = List.replicate (m + 1) lo ∧
    ∀ ch ∈ tr, mmRange ch ≠ 0 := by
  have hclen : c < tr.length := by
    by_contra hlt
    rw [List.getD_eq_default _ _ (by omega)] at hc
    have := congrArg List.length hc
    simp at this
  constructor
  · have hlen2 : c < (minMaxTrial lo hi tr).length := by
      simpa [minMaxTrial] using hclen
    rw [List.getD_eq_getElem _ _ hlen2]
    rw [List.getD_eq_getElem _ _ hclen] at hc
    have : (minMaxTrial lo hi tr)[c] = minMaxCh lo hi tr[c] := by
      simp [minMaxTrial]
    rw [this, hc]
    unfold minMaxCh mmRange
    rw [listMin_replicate, listMax_replicate]
    simp
  · intro ch _
    exact mmRange_ne_zero ch

/-- C6: the per-trial min-max stage with its default range `(0, 1)` is
idempotent: a second pass on its own output changes nothing, and the
first pass maps every value of every channel of every trial into
`[0, 1]`. -/
theorem C6_minmax_idempotent (c : Corpus) :
    min_max_normalization_per_signal 0 1 (min_max_normalization_per_signal 0 1 c)
      = min_max_normalization_per_signal 0 1 c ∧
    ∀ tr ∈ min_max_normalization_per_signal 0 1 c, ∀ ch ∈ tr, ∀ x ∈ ch,
      0 ≤ x ∧ x ≤ 1 := by
  constructor
  · unfold min_max_normalization_per_signal
    rw [List.map_map]
    exact List.map_congr_left fun tr _ => minMaxTrial_idem tr
  · intro tr htr ch hch x hx
    obtain ⟨tr0, _, rfl⟩ := List.mem_map.1 htr
    obtain ⟨ch0, _, rfl⟩ := List.mem_map.1 hch
    exact minMaxCh_mem_bounds (by norm_num) hx

/-- Witness for C4: the constant channel `[2, 2, 2]` normalizes to
`[0, 0, 0]` under the default range `(0, 1)`. -/
theorem C4_constant_channel_witness :
    (minMaxTrial 0 1 [[(2 : ℚ), 2, 2]]).getD 0 [] = List.replicate 3 (0 : ℚ) ∧
    ∀ ch ∈ ([[(2 : ℚ), 2, 2]] : Trial), mmRange ch ≠ 0 :=
  C4_constant_channel 0 1 2 2 0 [[(2 : ℚ), 2, 2]] (by rfl)

/-! ### Helper lemmas about the common-average reference -/

theorem getD_map_range (n t : ℕ) (f : ℕ → ℚ) (h : t < n) :
    ((List.range n).map f).getD t 0 = f t := by
  rw [List.getD_eq_getElem _ _ (by simpa using h)]
  simp

theorem range_map_getD (l : List ℚ) :
    (List.range l.length).map (fun t => l.getD t 0) = l := by
  apply List.ext_getElem
  · simp
  · intro n h1 h2
    simp only [List.getElem_map, List.getElem_range]
    exact List.getD_eq_getElem l 0 (by simpa using h2)

theorem sum_map_sub_const (chs : Trial) (g : List ℚ → ℚ) (c : ℚ) :
    (chs.map fun ch => g ch - c).sum = (chs.map g).sum - chs.length * c := by
  induction chs with
  | nil => simp
  | cons ch t ih =>
      simp [ih]
      ring

/-- After one CAR pass the across-channel mean is zero at every time
position inside the (rectangular) trial. -/
theorem carAvg_carTrial (chs : Trial) (T t : ℕ)
    (hrect : ∀ ch ∈ chs, ch.length = T) (ht : t < T) :
    carAvg (carTrial chs) t = 0 := by
  rcases eq_or_ne chs [] with rfl | hne
  · simp [carTrial, carAvg]
  · have hmap : (carTrial chs).map (fun ch => ch.getD t 0)
        = chs.map fun ch => ch.getD t 0 - carAvg chs t := by
      unfold carTrial
      rw [List.map_map]
      apply List.map_congr_left
      intro ch hch
      have hl : ch.length = T := hrect ch hch
      simp only [Function.comp]
      exact getD_map_range ch.length t _ (by omega)
    have hne2 : ((chs.length : ℚ)) ≠ 0 := by
      have hne3 : chs.length ≠ 0 := by simpa [List.length_eq_zero] using hne
      exact_mod_cast hne3
    have hnum : (chs.map (fun ch => ch.getD t 0 - carAvg chs t)).sum = 0 := by
      rw [sum_map_sub_const]
      unfold carAvg
      field_simp
    show ((carTrial chs).map (fun ch => ch.getD t 0)).sum / ((carTrial chs).length : ℚ) = 0
    rw [hmap, hnum, zero_div]

theorem carTrial_idem (chs : Trial) (T : ℕ) (hrect : ∀ ch ∈ chs, ch.length = T) :
    carTrial (carTrial chs) = carTrial chs := by
  have hlen : ∀ ch2 ∈ carTrial chs, ch2.length = T := by
    intro ch2 h2
    obtain ⟨ch, hch, rfl⟩ := List.mem_map.1 h2
    simp [hrect ch hch]
  have hpoint : ∀ ch2 ∈ carTrial chs,
      (List.range ch2.length).map (fun t => ch2.getD t 0 - carAvg (carTrial chs) t)
        = ch2 := by
    intro ch2 h2
    have hl : ch2.length = T := hlen ch2 h2
    have hcongr : (List.range ch2.length).map
          (fun t => ch2.getD t 0 - carAvg (carTrial chs) t)
        = (List.range ch2.length).map fun t => ch2.getD t 0 := by
      apply List.map_congr_left
      intro t htmem
      have ht : t < T := by
        rw [← hl]
        exact List.mem_range.1 htmem
      rw [carAvg_carTrial chs T t hrect ht, sub_zero]
    rw [hcongr, range_map_getD]
  calc carTrial (carTrial chs)
      = (carTrial chs).map (fun ch2 =>
          (List.range ch2.length).map fun t => ch2.getD t 0 - carAvg (carTrial chs) t) := rfl
    _ = (carTrial chs).map (fun ch2 => ch2) := List.map_congr_left hpoint
    _ = carTrial chs := List.map_id' _

/-- C10: the common-average-reference stage is idempotent on rectangular
corpora — after one application the across-channel mean at every (trial,
sample) position is zero, so a second application subtracts nothing. -/
theorem C10_car_idempotent (c : Corpus) (T : ℕ)
    (hrect : ∀ tr ∈ c, ∀ ch ∈ tr, ch.length = T) :
    common_average_reference (common_average_reference c) = common_average_reference c ∧
    ∀ tr ∈ c, ∀ t, t < T → carAvg (carTrial tr) t = 0 := by
  constructor
  · unfold common_average_reference
    rw [List.map_map]
    apply List.map_congr_left
    intro tr htr
    exact carTrial_idem tr T (hrect tr htr)
  · intro tr htr t ht
    exact carAvg_carTrial tr T t (hrect tr htr) ht

/-- Witness for C10 on a concrete rectangular corpus. -/
theorem C10_car_idempotent_witness :
    common_average_reference (common_average_reference [[[(1 : ℚ), 2], [3, 4]]])
        = common_average_reference [[[(1 : ℚ), 2], [3, 4]]] ∧
    ∀ tr ∈ ([[[(1 : ℚ), 2], [3, 4]]] : Corpus), ∀ t, t < 2 →
      carAvg (carTrial tr) t = 0 :=
  C10_car_idempotent [[[(1 : ℚ), 2], [3, 4]]] 2 (by decide)

/-! ### Helper lemmas about downsampling and the whole pipeline -/

theorem stridedGo_length (k : ℕ) (hk : 0 < k) :
    ∀ (fuel : ℕ) (l : List ℚ), l.length ≤ fuel →
      (stridedGo k fuel l).length = (l.length + k - 1) / k := by
  intro fuel
  induction fuel with
  | zero =>
      intro l hl
      have hnil : l = [] := List.length_eq_zero.1 (by omega)
      subst hnil
      simp only [stridedGo, List.length_nil]
      exact (Nat.div_eq_of_lt (by omega)).symm
  | succ n ih =>
      intro l hl
      cases l with
      | nil =>
          simp only [stridedGo, List.length_nil]
          exact (Nat.div_eq_of_lt (by omega)).symm
      | cons x xs =>
          have hdrop : (xs.drop (k - 1)).length = xs.length - (k - 1) :=
            List.length_drop _ _
          have hl2 : xs.length + 1 ≤ n + 1 := by simpa using hl
          have hih := ih (xs.drop (k - 1)) (by rw [hdrop]; omega)
          show (x :: stridedGo k n (xs.drop (k - 1))).length = _
          rw [List.length_cons, hih, hdrop]
          have hr : (x :: xs).length + k - 1 = xs.length + k := by
            simp only [List.length_cons]
            omega
          rw [hr, Nat.add_div_right _ hk]
          rcases Nat.lt_or_ge xs.length (k - 1) with hc | hc
          · have h1 : xs.length - (k - 1) = 0 := by omega
            rw [h1]
            rw [Nat.div_eq_of_lt (by omega : 0 + k - 1 < k),
              Nat.div_eq_of_lt (by omega : xs.length < k)]
          · have h1 : xs.length - (k - 1) + k - 1 = xs.length := by omega
            rw [h1]

theorem strided_length (k : ℕ) (hk : 0 < k) (l : List ℚ) :
    (strided k l).length = (l.length + k - 1) / k :=
  stridedGo_length k hk l.length l le_rfl

/-- C5 (amended): the five-stage pipeline maps each trial independently in
order (no trial is reordered or dropped), preserves the trial count and
the per-trial channel count, and produces `⌈T / 2⌉ = (T + 1) / 2` samples
per channel from `T`-sample trials with the default downsampling factor 2
(equal to `T / 2` when `T` is even, and one more when `T` is odd).
The external filter `f` and decomposition `g` are spec-modelled
shape-preserving transforms. -/
theorem C5_pipeline_shape (f : List ℚ → List ℚ) (g : Trial → Trial) (c : Corpus) (C T : ℕ)
    (hf : ∀ l, (f l).length = l.length)
    (hg : ∀ tr C' T', tr.length = C' → (∀ ch ∈ tr, ch.length = T') →
      (g tr).length = C' ∧ ∀ ch ∈ g tr, ch.length = T')
    (hc : ∀ tr ∈ c, tr.length = C ∧ ∀ ch ∈ tr, ch.length = T) :
    get_trials_pipeline f g c = c.map (pipelinePerTrial f g) ∧
    (get_trials_pipeline f g c).length = c.length ∧
    ∀ tr ∈ get_trials_pipeline f g c,
      tr.length = C ∧ ∀ ch ∈ tr, ch.length = (T + 1) / 2 := by
  have hcomp : get_trials_pipeline f g c = c.map (pipelinePerTrial f g) := by
    unfold get_trials_pipeline min_max_normalization_per_signal downsample apply_ica
      common_average_reference butterworth_lowpass_filter pipelinePerTrial
    simp [List.map_map, Function.comp]
  refine ⟨hcomp, by rw [hcomp, List.length_map], ?_⟩
  intro tr htr
  rw [hcomp] at htr
  obtain ⟨tr0, htr0, rfl⟩ := List.mem_map.1 htr
  obtain ⟨hC0, hT0⟩ := hc tr0 htr0
  have h1 : (tr0.map f).length = C ∧ ∀ ch ∈ tr0.map f, ch.length = T := by
    constructor
    · simpa using hC0
    · intro ch hch
      obtain ⟨ch0, hch0, rfl⟩ := List.mem_map.1 hch
      rw [hf ch0]
      exact hT0 ch0 hch0
  have h2 : (carTrial (tr0.map f)).length = C ∧
      ∀ ch ∈ carTrial (tr0.map f), ch.length = T := by
    constructor
    · simpa [carTrial] using h1.1
    · intro ch hch
      obtain ⟨ch0, hch0, rfl⟩ := List.mem_map.1 hch
      simpa using h1.2 ch0 hch0
  have h3 := hg (carTrial (tr0.map f)) C T h2.1 h2.2
  have h4 : ((g (carTrial (tr0.map f))).map (strided 2)).length = C ∧
      ∀ ch ∈ (g (carTrial (tr0.map f))).map (strided 2), ch.length = (T + 1) / 2 := by
    constructor
    · simpa using h3.1
    · intro ch hch
      obtain ⟨ch0, hch0, rfl⟩ := List.mem_map.1 hch
      rw [strided_length 2 (by norm_num) ch0, h3.2 ch0 hch0]
      omega
  constructor
  · simpa [pipelinePerTrial, minMaxTrial] using h4.1
  · intro ch hch
    simp only [pipelinePerTrial, minMaxTrial] at hch
    obtain ⟨ch0, hch0, rfl⟩ := List.mem_map.1 hch
    simpa [minMaxCh] using h4.2 ch0 hch0

/-- Counterexample to C5 as stated: a corpus whose trials hold a single
sample.  The pipeline (with identity spec-modelled external stages) keeps
that sample — `data[:, :, ::2]` on one sample yields one sample — so the
output has 1 sample per channel, not `1 / 2 = 0` as "samples divided by
the downsampling factor" demands. -/
theorem C5_downsample_counterexample :
    (((get_trials_pipeline (fun l => l) (fun tr => tr) [[[(5 : ℚ)]]]).getD 0 []).getD 0
        []).length = 1 ∧ (1 : ℕ) ≠ 1 / 2 := by
  constructor
  · rfl
  · decide

/-- Witness for C5 on a concrete one-trial corpus of shape (1, 1, 2). -/
theorem C5_pipeline_shape_witness :
    get_trials_pipeline (fun l => l) (fun tr => tr) [[[(1 : ℚ), 2]]]
        = ([[[(1 : ℚ), 2]]] : Corpus).map (pipelinePerTrial (fun l => l) (fun tr => tr)) ∧
    (get_trials_pipeline (fun l => l) (fun tr => tr) [[[(1 : ℚ), 2]]]).length
        = ([[[(1 : ℚ), 2]]] : Corpus).length ∧
    ∀ tr ∈ get_trials_pipeline (fun l => l) (fun tr => tr) [[[(1 : ℚ), 2]]],
      tr.length = 1 ∧ ∀ ch ∈ tr, ch.length = (2 + 1) / 2 :=
  C5_pipeline_shape (fun l => l) (fun tr => tr) [[[(1 : ℚ), 2]]] 1 2
    (fun _ => rfl) (fun _ _ _ h1 h2 => ⟨h1, h2⟩) (by decide)

/-! ### Claim theorems about configuration errors and random access -/

/-- Counterexample to C7 as stated: the unrecognized `trial_type`
`"bogus"` does not make dataset construction fail — extraction succeeds
and silently treats it as the non-`"reading"` family (start marker 30),
emitting the trial of `wTblC` with label 30. -/
theorem C7_counterexample :
    extract_trials wTblC "AK-SREP" "bogus" 2
      = .ok ([List.replicate 12 [(1 : ℚ), 2]], [30]) := by
  rfl

/-- C7 (amended): an unrecognized `class_type` makes extraction fail with
a key-lookup error that names the invalid tag (but not the allowed set,
and only once extraction runs on a loaded file, not at construction
before any file is read), while an unrecognized `trial_type` raises no
error at all: it selects start marker 30 and label offset 3, exactly as
the non-`"reading"` family. -/
theorem C7_config_errors (tbl : Table) (ct tt : String) (target : ℕ)
    (hct : selectedElectrodes ct = none) (htt : tt ≠ "reading") :
    extract_trials tbl ct tt target = .error ("KeyError: " ++ ct) ∧
    startEvent tt = 30 ∧ labelOffset tt = 3 := by
  refine ⟨?_, by simp [startEvent, htt], by simp [labelOffset, htt]⟩
  unfold extract_trials
  rw [hct]

/-- Witness for C7 (amended) at the unknown tags `"XYZ"` and `"bogus"`. -/
theorem C7_config_errors_witness :
    extract_trials wTblA "XYZ" "bogus" 4 = .error ("KeyError: " ++ "XYZ") ∧
    startEvent "bogus" = 30 ∧ labelOffset "bogus" = 3 :=
  C7_config_errors wTblA "XYZ" "bogus" 4 (by rfl) (by decide)

/-- Counterexample to C8 as stated: on a one-trial dataset the index `-1`
is outside `[0, 1)`, yet `__getitem__` does not raise — NumPy integer
indexing wraps it to the last trial, returning its matrices and re-based
label. -/
theorem C8_counterexample :
    dataset_getitem (fun tr => tr) [[[(1 : ℚ)]]] [4] (-1)
      = some ([[(1 : ℚ)]], [[(1 : ℚ)]], 3) := by
  rfl

/-- C8 (amended): `__getitem__` succeeds exactly for indices in
`[-n, n)` where `n` is the number of trials: non-negative indices address
directly, negative indices in `[-n, 0)` silently wrap to trial `n + k`,
and only indices outside `[-n, n)` raise the checked index error. -/
theorem C8_index_semantics (G : Trial → Trial) (data : Corpus) (labels : List ℤ) (k : ℤ) :
    ((dataset_getitem G data labels k).isSome ↔
      -(data.length : ℤ) ≤ k ∧ k < (data.length : ℤ)) ∧
    (0 ≤ k → k < (data.length : ℤ) →
      dataset_getitem G data labels k
        = some (data.getD k.toNat [], G (data.getD k.toNat []),
            labels.getD k.toNat 0 - 1)) ∧
    (-(data.length : ℤ) ≤ k → k < 0 →
      dataset_getitem G data labels k
        = some (data.getD (k + data.length).toNat [],
            G (data.getD (k + data.length).toNat []),
            labels.getD (k + data.length).toNat 0 - 1)) := by
  refine ⟨?_, ?_, ?_⟩
  · constructor
    · intro hs
      by_cases h1 : 0 ≤ k ∧ k < (data.length : ℤ)
      · omega
      · by_cases h2 : -(data.length : ℤ) ≤ k ∧ k < 0
        · omega
        · simp [dataset_getitem, npIndex, h1, h2] at hs
    · intro hk
      by_cases h1 : 0 ≤ k ∧ k < (data.length : ℤ)
      · simp [dataset_getitem, npIndex, h1]
      · have h2 : -(data.length : ℤ) ≤ k ∧ k < 0 := by omega
        simp [dataset_getitem, npIndex, h1, h2]
  · intro hk1 hk2
    unfold dataset_getitem npIndex
    rw [if_pos ⟨hk1, hk2⟩]
  · intro hk1 hk2
    unfold dataset_getitem npIndex
    rw [if_neg (by omega), if_pos ⟨hk1, hk2⟩]

/-- Witness for C8 (amended): index 0 of a one-trial dataset resolves to
the first trial with its label re-based from 4 to 3. -/
theorem C8_index_semantics_witness :
    dataset_getitem (fun tr => tr) [[[(1 : ℚ)]]] [4] 0
      = some ([[(1 : ℚ)]], [[(1 : ℚ)]], 3) :=
  (C8_index_semantics (fun tr => tr) [[[(1 : ℚ)]]] [4] 0).2.1 (by decide) (by decide)

end EEG
